import Mathlib

/-!
Shallow embedding of the MPEG transport-stream embedding core of audiowmark
(the `TSPacket`, `TSWriter` and `TSReader` classes of the mpegts source
file).  Bytes are modelled as natural numbers (values below 256 in every
stream the code produces), byte streams as lists of bytes, and file reads
and writes as explicit state passing.  Fallible operations return `Option`
values; `none` models `Error::Code::NONE`.
-/

set_option maxRecDepth 40000

/-- A byte stream or byte buffer: a list of byte values. -/
abbrev Bytes := List Nat

/-- Error values produced by the transport-stream code.  The source builds
them from message strings; only the three distinct failure causes matter. -/
inductive Err
  | badSync
  | shortRead
  | shortWrite
  deriving DecidableEq

/-- Result of `TSPacket::read`: the C++ function returns a bool and sets an
out-parameter error; zero bytes read is a clean end of stream. -/
inductive ReadResult
  | eof
  | ok (packet : Bytes)
  | fail (e : Err)
  deriving DecidableEq

/-- A staged or recovered entry: a name and an opaque data payload
(`TSWriter::Entry` and `TSReader::Entry` in the source). -/
structure Entry where
  name : Bytes
  data : Bytes
  deriving DecidableEq

/-- Reader-side header (`TSReader::Header`): parsed data size and name. -/
structure Header where
  data_size : Nat
  filename : Bytes
  deriving DecidableEq

/-- Packet classification (`TSPacket::ID`). -/
inductive TSPacket.ID
  | awmk_file
  | awmk_data
  | unknown
  deriving DecidableEq

/-- The 12 marker bytes of a start packet:
G, 0x1F, 0xFF, 0x10, A, W, M, K, f, i, l, e (`get_id_bytes (ID::awmk_file)`). -/
def fileId : Bytes := [71, 0x1F, 0xFF, 0x10, 65, 87, 77, 75, 102, 105, 108, 101]

/-- The 12 marker bytes of a continuation packet:
G, 0x1F, 0xFF, 0x10, A, W, M, K, d, a, t, a (`get_id_bytes (ID::awmk_data)`). -/
def dataId : Bytes := [71, 0x1F, 0xFF, 0x10, 65, 87, 77, 75, 100, 97, 116, 97]

/-- Classification of a packet by its first 12 bytes (`TSPacket::get_id`,
which compares bytes 0..11 against the two marker constants). -/
def TSPacket.get_id (p : Bytes) : TSPacket.ID :=
  if p.take 12 = fileId then TSPacket.ID.awmk_file
  else if p.take 12 = dataId then TSPacket.ID.awmk_data
  else TSPacket.ID.unknown

/-- Model of `TSPacket::read`: `fread` of up to 188 bytes from the stream.
Zero bytes available is a clean end of stream (false, no error); fewer than
188 bytes is a short read; a full packet whose first byte is not the sync
byte G (0x47 = 71) is a sync error; otherwise the packet is returned and
the stream advances by 188 bytes. -/
def TSPacket.read (s : Bytes) : ReadResult × Bytes :=
  if s.length = 0 then (ReadResult.eof, s)
  else if s.length < 188 then (ReadResult.fail Err.shortRead, [])
  else if (s.take 188).headI = 71 then (ReadResult.ok (s.take 188), s.drop 188)
  else (ReadResult.fail Err.badSync, s.drop 188)

/-- Model of `TSPacket::write`: `fwrite` of the 188 packet bytes.  Whether
the `idx`-th write call of an operation succeeds is an environment fact,
modelled by the oracle `wfail`; a failed write is a short write. -/
def TSPacket.write (wfail : Nat → Bool) (idx : Nat) : Option Err :=
  if wfail idx then some Err.shortWrite else none

/-- A freshly cleared packet with marker `id` whose payload region holds
`chunk` followed by zero padding (`TSPacket::clear` zero-fills the packet
and stamps the marker; the writer then fills bytes 12.. with data). -/
def padPacket (id chunk : Bytes) : Bytes :=
  id ++ chunk ++ List.replicate (176 - chunk.length) 0

/-- Least-significant-first decimal digit bytes of a positive number;
`fuel` bounds the recursion and is at least `n` at every call site. -/
def decimalDigits : Nat → Nat → Bytes
  | 0, _ => []
  | fuel + 1, n => if n = 0 then [] else (n % 10 + 48) :: decimalDigits fuel (n / 10)

/-- Decimal ASCII rendering of a natural number, as produced by
`sprintf ("%zd", n)` in `TSWriter::process`: most significant digit first,
no leading zeros, and the single digit 0 for n = 0. -/
def decimalOf (n : Nat) : Bytes :=
  if n = 0 then [48] else (decimalDigits n n).reverse

/-- The framed byte sequence of an entry built by `TSWriter::process`:
the header `<decimal size>:<name>` terminated by one NUL byte, followed by
the raw entry data (the source builds the header string and inserts it in
front of a copy of the data vector). -/
def frameEntry (e : Entry) : Bytes :=
  decimalOf e.data.length ++ [58] ++ e.name ++ [0] ++ e.data

/-- The packet-emission loop of `TSWriter::process` for one entry: the
framed bytes are cut into chunks of 176, the first chunk is stamped as an
awmk_file packet and every later chunk as an awmk_data packet, each packet
is written as soon as it is full, and a final partial packet is written
only when bytes remain (`pos != 12`).  The write results are assigned to a
local and never tested, exactly as in the source.  Returns the list of
packets handed to `fwrite` and the next write index; `fuel` bounds the
recursion and is at least the byte count at every call site. -/
def TSWriter.emitEntry (wfail : Nat → Bool) : Nat → Nat → Bool → Bytes → List Bytes × Nat
  | 0, idx, _, _ => ([], idx)
  | fuel + 1, idx, first, d =>
    if d = [] then ([], idx)
    else
      let p := padPacket (if first then fileId else dataId) (d.take 176)
      let _err := TSPacket.write wfail idx
      let r := TSWriter.emitEntry wfail fuel (idx + 1) false (d.drop 176)
      (p :: r.1, r.2)

/-- The entry loop of `TSWriter::process`: frame and emit each staged entry
in staging order. -/
def TSWriter.entriesOut (wfail : Nat → Bool) : Nat → List Entry → List Bytes × Nat
  | idx, [] => ([], idx)
  | idx, e :: es =>
    let frame := frameEntry e
    let r := TSWriter.emitEntry wfail frame.length idx true frame
    let r2 := TSWriter.entriesOut wfail r.2 es
    (r.1 ++ r2.1, r2.2)

/-- The pass-through loop of `TSWriter::process`: read packets until clean
end of stream, return a read error at once, and write every successfully
read packet to the output.  The write result is assigned to a local `err`
that is never tested afterwards, exactly as in the source.  Returns the
error, the packets handed to `fwrite`, and the next write index; `fuel`
bounds the recursion and is at least the stream length at every call
site (one read consumes 188 bytes). -/
def TSWriter.passThrough (wfail : Nat → Bool) : Nat → Nat → Bytes → Option Err × List Bytes × Nat
  | 0, idx, _ => (none, [], idx)
  | fuel + 1, idx, s =>
    match TSPacket.read s with
    | (ReadResult.eof, _) => (none, [], idx)
    | (ReadResult.fail e, _) => (some e, [], idx)
    | (ReadResult.ok p, rest) =>
      let _err := TSPacket.write wfail idx
      let r := TSWriter.passThrough wfail fuel (idx + 1) rest
      (r.1, p :: r.2.1, r.2.2)

/-- Model of `TSWriter::process`: copy the input stream packet by packet
(aborting on a read error), then append the staged entries as marked
packets.  The result is the returned error together with the sequence of
packets handed to `fwrite`.  Write failures (oracle `wfail`) are silently
ignored, exactly as in the source, and the function returns no error
whenever the input stream was read cleanly. -/
def TSWriter.process (entries : List Entry) (wfail : Nat → Bool) (input : Bytes) :
    Option Err × List Bytes :=
  let r := TSWriter.passThrough wfail input.length 0 input
  match r.1 with
  | some e => (some e, r.2.1)
  | none => (none, r.2.1 ++ (TSWriter.entriesOut wfail r.2.2 entries).1)

/-- The packets `TSWriter::process` emits for one entry (the emission loop
with all writes succeeding; the packet list does not depend on the write
oracle or the write index). -/
def entryPackets (e : Entry) : List Bytes :=
  (TSWriter.emitEntry (fun _ => false) (frameEntry e).length 0 true (frameEntry e)).1

/-- Whether a byte is an ASCII decimal digit (the `[0-9]` class of the
header regex). -/
def isDigit (b : Nat) : Bool := 48 ≤ b && b ≤ 57

/-- Length of the maximal leading run of digit bytes. -/
def digitCount : Bytes → Nat
  | [] => 0
  | b :: r => if isDigit b then digitCount r + 1 else 0

/-- Value of a string of digit bytes, as computed by `atoi` on it; the
empty string parses as 0. -/
def natOfDigits (l : Bytes) : Nat :=
  l.foldl (fun a b => a * 10 + (b - 48)) 0

/-- Whether a byte is matched by `.` in the ECMAScript regex grammar used
by `std::regex`: any character except the line terminators LF and CR. -/
def dotByte (b : Nat) : Bool := !(b == 10 || b == 13)

/-- Index of the first NUL byte of a buffer (length of the buffer when
there is none). -/
def nulIdx : Bytes → Nat
  | [] => 0
  | b :: r => if b = 0 then 0 else nulIdx r + 1

/-- Whether `regex_match (s, sm, regex ("([0-9]*):(.*)"))` succeeds on the
NUL-free byte string `s`, and the two captured groups.  The match succeeds
exactly when the maximal leading digit run is followed by a colon and the
remainder contains no line terminator (ECMAScript `.` excludes LF and CR);
group 1 is the digit run (possibly empty) and group 2 the remainder. -/
def regexHeaderMatch (s : Bytes) : Option (Nat × Bytes) :=
  let k := digitCount s
  if (s.drop k).headI = 58 ∧ (s.drop (k + 1)).all dotByte then
    some (natOfDigits (s.take k), s.drop (k + 1))
  else none

/-- Model of `TSReader::parse_header`: the C++ loop builds, at every NUL
byte of the buffer, the C string starting at the buffer front - which
always ends at the first NUL - and regex-matches it, so the match is
attempted on the bytes before the first NUL and its outcome is the same in
every iteration.  On success the header is returned and the buffer loses
the header bytes including the NUL; on failure (`none`) the buffer is
unchanged. -/
def TSReader.parse_header (data : Bytes) : Option (Header × Bytes) :=
  let i := nulIdx data
  if i < data.length then
    match regexHeaderMatch (data.take i) with
    | some (sz, nm) => some (⟨sz, nm⟩, data.drop (i + 1))
    | none => none
  else none

/-- The reassembly state of `TSReader::load`: the accumulation buffer
`awmk_stream`, the parsed header (`none` models `header_valid == false`),
and the recovered entries `m_entries`. -/
structure TSReader.State where
  awmk_stream : Bytes
  header : Option Header
  m_entries : List Entry
  deriving DecidableEq

/-- The completion check of `TSReader::load`: once a header is known and
the buffer holds at least `data_size` bytes, the buffer is truncated to
`data_size`, the entry is emitted, and the reassembly state is reset;
otherwise the state keeps the buffer and header. -/
def TSReader.finish (E : List Entry) (h : Header) (stream : Bytes) : TSReader.State :=
  if h.data_size ≤ stream.length then
    ⟨[], none, E ++ [⟨h.filename, stream.take h.data_size⟩]⟩
  else ⟨stream, some h, E⟩

/-- The per-packet accumulation step of `TSReader::load` for a marked
packet payload: append the payload to the buffer, parse a header if none
is known yet, and run the completion check when a header is known. -/
def TSReader.accum (st : TSReader.State) (payload : Bytes) : TSReader.State :=
  let stream := st.awmk_stream ++ payload
  match st.header with
  | some h => TSReader.finish st.m_entries h stream
  | none =>
    match TSReader.parse_header stream with
    | some (h, rest) => TSReader.finish st.m_entries h rest
    | none => ⟨stream, none, st.m_entries⟩

/-- Processing of one successfully read packet in `TSReader::load`: an
awmk_file packet first resets the reassembly state, then any marked packet
(file or data) has its 176-byte payload region accumulated; unmarked
packets are ignored. -/
def TSReader.handlePacket (st : TSReader.State) (p : Bytes) : TSReader.State :=
  let id := TSPacket.get_id p
  let st1 := if id = TSPacket.ID.awmk_file then ⟨[], none, st.m_entries⟩ else st
  if id = TSPacket.ID.awmk_file ∨ id = TSPacket.ID.awmk_data then
    TSReader.accum st1 (p.drop 12)
  else st1

/-- Folding a list of already read packets through the reader. -/
def TSReader.runPackets (st : TSReader.State) (ps : List Bytes) : TSReader.State :=
  ps.foldl TSReader.handlePacket st

/-- The read loop of `TSReader::load`: read packets until clean end of
stream, return a read error at once, and process each packet; `fuel`
bounds the recursion and is at least the stream length at every call site
(one read consumes 188 bytes). -/
def TSReader.loadLoop : Nat → TSReader.State → Bytes → Option Err × TSReader.State
  | 0, st, _ => (none, st)
  | fuel + 1, st, s =>
    match TSPacket.read s with
    | (ReadResult.eof, _) => (none, st)
    | (ReadResult.fail e, _) => (some e, st)
    | (ReadResult.ok p, rest) => TSReader.loadLoop fuel (TSReader.handlePacket st p) rest

/-- Model of `TSReader::load`: run the read loop from the empty reassembly
state and return the error (`none` on clean end of stream) together with
the recovered entries, in discovery order, as `entries()` reports them. -/
def TSReader.load (s : Bytes) : Option Err × List Entry :=
  let r := TSReader.loadLoop s.length ⟨[], none, []⟩ s
  (r.1, r.2.m_entries)

/-- The pure packet-structure scan of a stream: the same read loop as
`TSReader::load` but with packet processing dropped, so its result depends
only on the stream length and on the first byte of each 188-byte block,
never on packet contents. -/
def readScan : Nat → Bytes → Option Err
  | 0, _ => none
  | fuel + 1, s =>
    match TSPacket.read s with
    | (ReadResult.eof, _) => none
    | (ReadResult.fail e, _) => some e
    | (ReadResult.ok _, rest) => readScan fuel rest

/-! Basic packet lemmas. -/

lemma get_id_file (pl : Bytes) : TSPacket.get_id (fileId ++ pl) = TSPacket.ID.awmk_file := by
  have h : (fileId ++ pl).take 12 = fileId := List.take_left' rfl
  simp [TSPacket.get_id, h]

lemma get_id_data (pl : Bytes) : TSPacket.get_id (dataId ++ pl) = TSPacket.ID.awmk_data := by
  have h : (dataId ++ pl).take 12 = dataId := List.take_left' rfl
  simp [TSPacket.get_id, h]
  decide

lemma headI_take (s : Bytes) (n : Nat) (h : n ≠ 0) : (s.take n).headI = s.headI := by
  cases s with
  | nil => simp
  | cons a l =>
    cases n with
    | zero => exact absurd rfl h
    | succ m => simp

lemma read_nil : TSPacket.read [] = (ReadResult.eof, []) := rfl

lemma read_packet (p s : Bytes) (hl : p.length = 188) (hs : p.headI = 71) :
    TSPacket.read (p ++ s) = (ReadResult.ok p, s) := by
  have hlen : (p ++ s).length = 188 + s.length := by
    rw [List.length_append, hl]
  simp only [TSPacket.read, hlen, List.take_left' hl, List.drop_left' hl]
  rw [if_neg (by omega), if_neg (by omega), if_pos hs]

lemma read_short (s : Bytes) (h0 : s ≠ []) (h1 : s.length < 188) :
    TSPacket.read s = (ReadResult.fail Err.shortRead, []) := by
  simp only [TSPacket.read]
  rw [if_neg (by simpa using h0), if_pos h1]

lemma read_sync (s : Bytes) (h1 : 188 ≤ s.length) (h2 : s.headI ≠ 71) :
    TSPacket.read s = (ReadResult.fail Err.badSync, s.drop 188) := by
  simp only [TSPacket.read]
  rw [if_neg (by omega), if_neg (by omega), if_neg (by rw [headI_take s 188 (by omega)]; exact h2)]

/-! Step lemmas for the reader loop. -/

lemma loadLoop_nil (fuel : Nat) (st : TSReader.State) :
    TSReader.loadLoop fuel st [] = (none, st) := by
  cases fuel <;> rfl

lemma loadLoop_cons (fuel : Nat) (st : TSReader.State) (p s : Bytes)
    (hl : p.length = 188) (hs : p.headI = 71) :
    TSReader.loadLoop (fuel + 1) st (p ++ s)
      = TSReader.loadLoop fuel (TSReader.handlePacket st p) s := by
  simp only [TSReader.loadLoop, read_packet p s hl hs]

lemma loadLoop_fail (fuel : Nat) (st : TSReader.State) (s : Bytes) (e : Err)
    (h : (TSPacket.read s).1 = ReadResult.fail e) :
    TSReader.loadLoop (fuel + 1) st s = (some e, st) := by
  have h2 : TSPacket.read s = (ReadResult.fail e, (TSPacket.read s).2) := by
    rw [← h]
  simp only [TSReader.loadLoop]
  rw [h2]

lemma runPackets_nil (st : TSReader.State) : TSReader.runPackets st [] = st := rfl

lemma runPackets_cons (st : TSReader.State) (p : Bytes) (ps : List Bytes) :
    TSReader.runPackets st (p :: ps) = TSReader.runPackets (TSReader.handlePacket st p) ps := rfl

lemma runPackets_append (st : TSReader.State) (a b : List Bytes) :
    TSReader.runPackets st (a ++ b) = TSReader.runPackets (TSReader.runPackets st a) b := by
  simp [TSReader.runPackets, List.foldl_append]

lemma loadLoop_flatten :
    ∀ (ps : List Bytes) (fuel : Nat) (st : TSReader.State) (s : Bytes),
      (∀ p ∈ ps, p.length = 188 ∧ p.headI = 71) → (ps.flatten ++ s).length ≤ fuel →
      TSReader.loadLoop fuel st (ps.flatten ++ s)
        = TSReader.loadLoop (fuel - ps.length) (TSReader.runPackets st ps) s := by
  intro ps
  induction ps with
  | nil => intro fuel st s _ _; simp [runPackets_nil]
  | cons p ps ih =>
    intro fuel st s hgood hlen
    have hp := hgood p (List.mem_cons_self _ _)
    have hps : ∀ q ∈ ps, q.length = 188 ∧ q.headI = 71 :=
      fun q hq => hgood q (List.mem_cons_of_mem _ hq)
    have hshape : (p :: ps).flatten ++ s = p ++ (ps.flatten ++ s) := by
      simp [List.append_assoc]
    have hlen2 : ((p :: ps).flatten ++ s).length = 188 + (ps.flatten ++ s).length := by
      rw [hshape, List.length_append, hp.1]
    obtain ⟨f, rfl⟩ : ∃ f, fuel = f + 1 := by
      cases fuel with
      | zero => exfalso; omega
      | succ f => exact ⟨f, rfl⟩
    rw [hshape, loadLoop_cons f st p _ hp.1 hp.2,
        ih f (TSReader.handlePacket st p) s hps (by omega)]
    rw [runPackets_cons]
    have hfu : f + 1 - (p :: ps).length = f - ps.length := by
      rw [List.length_cons]; omega
    rw [hfu]

/-! Step lemmas for the writer loops. -/

lemma passThrough_nil (wfail : Nat → Bool) (fuel idx : Nat) :
    TSWriter.passThrough wfail fuel idx [] = (none, [], idx) := by
  cases fuel <;> rfl

lemma passThrough_cons (wfail : Nat → Bool) (fuel idx : Nat) (p s : Bytes)
    (hl : p.length = 188) (hs : p.headI = 71) :
    TSWriter.passThrough wfail (fuel + 1) idx (p ++ s)
      = ((TSWriter.passThrough wfail fuel (idx + 1) s).1,
         p :: (TSWriter.passThrough wfail fuel (idx + 1) s).2.1,
         (TSWriter.passThrough wfail fuel (idx + 1) s).2.2) := by
  simp only [TSWriter.passThrough, read_packet p s hl hs]

lemma passThrough_fail (wfail : Nat → Bool) (fuel idx : Nat) (s : Bytes) (e : Err)
    (h : (TSPacket.read s).1 = ReadResult.fail e) :
    TSWriter.passThrough wfail (fuel + 1) idx s = (some e, [], idx) := by
  have h2 : TSPacket.read s = (ReadResult.fail e, (TSPacket.read s).2) := by
    rw [← h]
  simp only [TSWriter.passThrough]
  rw [h2]

lemma passThrough_flatten :
    ∀ (ps : List Bytes) (fuel idx : Nat) (s : Bytes) (wfail : Nat → Bool),
      (∀ p ∈ ps, p.length = 188 ∧ p.headI = 71) → (ps.flatten ++ s).length ≤ fuel →
      TSWriter.passThrough wfail fuel idx (ps.flatten ++ s)
        = ((TSWriter.passThrough wfail (fuel - ps.length) (idx + ps.length) s).1,
           ps ++ (TSWriter.passThrough wfail (fuel - ps.length) (idx + ps.length) s).2.1,
           (TSWriter.passThrough wfail (fuel - ps.length) (idx + ps.length) s).2.2) := by
  intro ps
  induction ps with
  | nil => intro fuel idx s wfail _ _; simp
  | cons p ps ih =>
    intro fuel idx s wfail hgood hlen
    have hp := hgood p (List.mem_cons_self _ _)
    have hps : ∀ q ∈ ps, q.length = 188 ∧ q.headI = 71 :=
      fun q hq => hgood q (List.mem_cons_of_mem _ hq)
    have hshape : (p :: ps).flatten ++ s = p ++ (ps.flatten ++ s) := by
      simp [List.append_assoc]
    have hlen2 : ((p :: ps).flatten ++ s).length = 188 + (ps.flatten ++ s).length := by
      rw [hshape, List.length_append, hp.1]
    obtain ⟨f, rfl⟩ : ∃ f, fuel = f + 1 := by
      cases fuel with
      | zero => exfalso; omega
      | succ f => exact ⟨f, rfl⟩
    rw [hshape, passThrough_cons wfail f idx p _ hp.1 hp.2,
        ih f (idx + 1) s wfail hps (by omega)]
    have hfu : f - ps.length = f + 1 - (p :: ps).length := by
      rw [List.length_cons]; omega
    have hix : idx + 1 + ps.length = idx + (p :: ps).length := by
      rw [List.length_cons]; omega
    rw [hfu, hix]
    simp

/-! Lemmas about the entry emission loop. -/

lemma emitEntry_zero (wfail : Nat → Bool) (idx : Nat) (first : Bool) (d : Bytes) :
    TSWriter.emitEntry wfail 0 idx first d = ([], idx) := rfl

lemma emitEntry_empty (wfail : Nat → Bool) (fuel idx : Nat) (first : Bool) :
    TSWriter.emitEntry wfail fuel idx first [] = ([], idx) := by
  cases fuel <;> rfl

lemma emitEntry_cons (wfail : Nat → Bool) (fuel idx : Nat) (first : Bool) (d : Bytes)
    (hd : d ≠ []) :
    TSWriter.emitEntry wfail (fuel + 1) idx first d
      = (padPacket (if first then fileId else dataId) (d.take 176)
           :: (TSWriter.emitEntry wfail fuel (idx + 1) false (d.drop 176)).1,
         (TSWriter.emitEntry wfail fuel (idx + 1) false (d.drop 176)).2) := by
  simp only [TSWriter.emitEntry, if_neg hd]

lemma padPacket_length (id chunk : Bytes) (hid : id.length = 12) (hc : chunk.length ≤ 176) :
    (padPacket id chunk).length = 188 := by
  simp [padPacket, hid]
  omega

lemma take_176_length (d : Bytes) : (d.take 176).length ≤ 176 := by
  rw [List.length_take]; omega

lemma padPacket_headI_file (chunk : Bytes) : (padPacket fileId chunk).headI = 71 := rfl

lemma padPacket_headI_data (chunk : Bytes) : (padPacket dataId chunk).headI = 71 := rfl

lemma emit_good (wfail : Nat → Bool) :
    ∀ (fuel : Nat) (d : Bytes) (idx : Nat) (first : Bool) (p : Bytes),
      p ∈ (TSWriter.emitEntry wfail fuel idx first d).1 → p.length = 188 ∧ p.headI = 71 := by
  intro fuel
  induction fuel with
  | zero => intro d idx first p hp; simp [emitEntry_zero] at hp
  | succ f ih =>
    intro d idx first p hp
    by_cases hd : d = []
    · subst hd; simp [emitEntry_empty] at hp
    · rw [emitEntry_cons wfail f idx first d hd] at hp
      rcases List.mem_cons.mp hp with h | h
      · subst h
        refine ⟨padPacket_length _ _ ?_ (take_176_length d), ?_⟩
        · cases first <;> rfl
        · cases first
          · exact padPacket_headI_data _
          · exact padPacket_headI_file _
      · exact ih (d.drop 176) (idx + 1) false p h

lemma emitEntry_fst_const (fuel : Nat) :
    ∀ (d : Bytes) (w w2 : Nat → Bool) (idx idx2 : Nat) (first : Bool),
      (TSWriter.emitEntry w fuel idx first d).1 = (TSWriter.emitEntry w2 fuel idx2 first d).1 := by
  induction fuel with
  | zero => intro d w w2 idx idx2 first; rfl
  | succ f ih =>
    intro d w w2 idx idx2 first
    by_cases hd : d = []
    · subst hd; simp [emitEntry_empty]
    · rw [emitEntry_cons w f idx first d hd, emitEntry_cons w2 f idx2 first d hd]
      simp only [List.cons.injEq, true_and]
      exact ih (d.drop 176) w w2 (idx + 1) (idx2 + 1) false

lemma entriesOut_fst (w : Nat → Bool) :
    ∀ (es : List Entry) (idx : Nat),
      (TSWriter.entriesOut w idx es).1 = (es.map entryPackets).flatten := by
  intro es
  induction es with
  | nil => intro idx; rfl
  | cons e es ih =>
    intro idx
    simp only [TSWriter.entriesOut, List.map_cons, List.flatten_cons]
    rw [ih, entryPackets, emitEntry_fst_const]

lemma entriesOut_good (w : Nat → Bool) :
    ∀ (es : List Entry) (idx : Nat) (p : Bytes),
      p ∈ (TSWriter.entriesOut w idx es).1 → p.length = 188 ∧ p.headI = 71 := by
  intro es
  induction es with
  | nil => intro idx p hp; simp [TSWriter.entriesOut] at hp
  | cons e es ih =>
    intro idx p hp
    simp only [TSWriter.entriesOut, List.mem_append] at hp
    rcases hp with h | h
    · exact emit_good w _ _ _ _ p h
    · exact ih _ p h

lemma process_valid (es : List Entry) (w : Nat → Bool) (ps : List Bytes)
    (hps : ∀ p ∈ ps, p.length = 188 ∧ p.headI = 71) :
    TSWriter.process es w ps.flatten = (none, ps ++ (es.map entryPackets).flatten) := by
  have hsplit : ps.flatten = ps.flatten ++ [] := by simp
  simp only [TSWriter.process]
  rw [hsplit, passThrough_flatten ps _ 0 [] w hps (by simp), passThrough_nil]
  simp [entriesOut_fst]

lemma process_empty (es : List Entry) (w : Nat → Bool) :
    TSWriter.process es w [] = (none, (es.map entryPackets).flatten) := by
  have h := process_valid es w [] (by intro p hp; simp at hp)
  simpa using h

lemma flatten_length_ge (ps : List Bytes) (h : ∀ p ∈ ps, p.length = 188) :
    ps.length ≤ ps.flatten.length := by
  induction ps with
  | nil => simp
  | cons p ps ih =>
    have hp := h p (List.mem_cons_self _ _)
    have hrest := ih (fun q hq => h q (List.mem_cons_of_mem _ hq))
    simp only [List.flatten_cons, List.length_append, List.length_cons, hp]
    omega

lemma process_fail (es : List Entry) (w : Nat → Bool) (ps : List Bytes) (s : Bytes) (e : Err)
    (hps : ∀ p ∈ ps, p.length = 188 ∧ p.headI = 71)
    (hs : (TSPacket.read s).1 = ReadResult.fail e) :
    TSWriter.process es w (ps.flatten ++ s) = (some e, ps) := by
  have hsne : s ≠ [] := by
    intro h; subst h; rw [read_nil] at hs; exact ReadResult.noConfusion hs
  have hslen : 0 < s.length := List.length_pos.mpr hsne
  have hflat : ps.length ≤ ps.flatten.length :=
    flatten_length_ge ps (fun p hp => (hps p hp).1)
  have hlen : (ps.flatten ++ s).length = ps.flatten.length + s.length :=
    List.length_append _ _
  simp only [TSWriter.process]
  rw [passThrough_flatten ps _ 0 s w hps (le_refl _)]
  obtain ⟨f, hf⟩ : ∃ f, (ps.flatten ++ s).length - ps.length = f + 1 :=
    ⟨(ps.flatten ++ s).length - ps.length - 1, by omega⟩
  rw [hf, passThrough_fail w f _ s e hs]
  simp

lemma emit_count (w : Nat → Bool) :
    ∀ (fuel : Nat) (d : Bytes) (idx : Nat) (first : Bool),
      d ≠ [] → d.length ≤ fuel →
      (TSWriter.emitEntry w fuel idx first d).1.length = (d.length + 175) / 176 := by
  intro fuel
  induction fuel with
  | zero =>
    intro d idx first hd hf
    exact absurd (List.length_eq_zero.mp (by omega)) hd
  | succ f ih =>
    intro d idx first hd hf
    have hdpos : 0 < d.length := List.length_pos.mpr hd
    rw [emitEntry_cons w f idx first d hd]
    simp only [List.length_cons]
    by_cases hsmall : d.length ≤ 176
    · have hdrop : d.drop 176 = [] := List.drop_eq_nil_of_le hsmall
      rw [hdrop, emitEntry_empty]
      have h1 : d.length + 175 = (d.length - 1) + 176 := by omega
      rw [h1, Nat.add_div_right _ (by omega), Nat.div_eq_of_lt (by omega)]
      rfl
    · push_neg at hsmall
      have hlen : (d.drop 176).length = d.length - 176 := List.length_drop _ _
      have hne : d.drop 176 ≠ [] := by
        intro h
        rw [h] at hlen
        simp at hlen
        omega
      rw [ih (d.drop 176) (idx + 1) false hne (by omega), hlen]
      have h2 : d.length + 175 = (d.length - 176 + 175) + 176 := by omega
      rw [h2, Nat.add_div_right _ (by omega)]

lemma emit_head (w : Nat → Bool) (fuel : Nat) (d : Bytes) (idx : Nat)
    (hd : d ≠ []) (hf : d.length ≤ fuel) :
    TSPacket.get_id ((TSWriter.emitEntry w fuel idx true d).1).headI
      = TSPacket.ID.awmk_file := by
  have hdpos : 0 < d.length := List.length_pos.mpr hd
  obtain ⟨f, rfl⟩ : ∃ f, fuel = f + 1 := by
    cases fuel with
    | zero => omega
    | succ f => exact ⟨f, rfl⟩
  rw [emitEntry_cons w f idx true d hd]
  simp only [List.headI_cons, if_pos rfl]
  exact get_id_file _

lemma emit_tail_data (w : Nat → Bool) :
    ∀ (fuel : Nat) (d : Bytes) (idx : Nat) (p : Bytes),
      p ∈ (TSWriter.emitEntry w fuel idx false d).1 →
      TSPacket.get_id p = TSPacket.ID.awmk_data := by
  intro fuel
  induction fuel with
  | zero => intro d idx p hp; simp [emitEntry_zero] at hp
  | succ f ih =>
    intro d idx p hp
    by_cases hd : d = []
    · subst hd; simp [emitEntry_empty] at hp
    · rw [emitEntry_cons w f idx false d hd] at hp
      rw [if_neg (by decide)] at hp
      rcases List.mem_cons.mp hp with h | h
      · subst h; exact get_id_data _
      · exact ih (d.drop 176) (idx + 1) p h

lemma emit_tail (w : Nat → Bool) (fuel : Nat) (d : Bytes) (idx : Nat)
    (hd : d ≠ []) (hf : d.length ≤ fuel) :
    ∀ p ∈ ((TSWriter.emitEntry w fuel idx true d).1).tail,
      TSPacket.get_id p = TSPacket.ID.awmk_data := by
  have hdpos : 0 < d.length := List.length_pos.mpr hd
  obtain ⟨f, rfl⟩ : ∃ f, fuel = f + 1 := by
    cases fuel with
    | zero => omega
    | succ f => exact ⟨f, rfl⟩
  rw [emitEntry_cons w f idx true d hd]
  intro p hp
  exact emit_tail_data w f (d.drop 176) (idx + 1) p hp

/-! Lemmas about decimal rendering and header parsing. -/

lemma decimalDigits_eq : ∀ (fuel n : Nat), n ≤ fuel →
    decimalDigits fuel n = (Nat.digits 10 n).map (fun d => d + 48) := by
  intro fuel
  induction fuel with
  | zero =>
    intro n hn
    have h0 : n = 0 := by omega
    subst h0
    simp [decimalDigits]
  | succ f ih =>
    intro n hn
    by_cases h : n = 0
    · subst h; simp [decimalDigits]
    · simp only [decimalDigits, if_neg h]
      have hlt : n / 10 < n := Nat.div_lt_self (by omega) (by omega)
      rw [ih (n / 10) (by omega),
          Nat.digits_def' (by omega : (1 : Nat) < 10) (by omega : 0 < n)]
      simp

lemma decimalOf_eq_digits (n : Nat) (h : n ≠ 0) :
    decimalOf n = ((Nat.digits 10 n).map (fun d => d + 48)).reverse := by
  simp only [decimalOf, if_neg h]
  rw [decimalDigits_eq n n (le_refl n)]

lemma decimalOf_digits (n : Nat) : ∀ b ∈ decimalOf n, 48 ≤ b ∧ b ≤ 57 := by
  intro b hb
  by_cases h : n = 0
  · subst h; simp [decimalOf] at hb; omega
  · rw [decimalOf_eq_digits n h] at hb
    simp only [List.mem_reverse, List.mem_map] at hb
    obtain ⟨d, hd, rfl⟩ := hb
    have := Nat.digits_lt_base (by omega) hd
    omega

lemma decimalOf_ne_nil (n : Nat) : decimalOf n ≠ [] := by
  by_cases h : n = 0
  · subst h; simp [decimalOf]
  · rw [decimalOf_eq_digits n h]
    simp [Nat.digits_ne_nil_iff_ne_zero.mpr h]

lemma foldl_digits (ds : List Nat) :
    ∀ acc : Nat,
      List.foldl (fun a b => a * 10 + (b - 48)) acc (ds.reverse.map (fun d => d + 48))
        = acc * 10 ^ ds.length + Nat.ofDigits 10 ds := by
  induction ds with
  | nil => intro acc; simp [Nat.ofDigits_nil]
  | cons d ds ih =>
    intro acc
    simp only [List.reverse_cons, List.map_append, List.map_cons, List.map_nil,
      List.foldl_append, List.foldl_cons, List.foldl_nil, ih]
    rw [Nat.ofDigits_cons]
    simp only [List.length_cons, Nat.add_sub_cancel]
    ring

lemma natOfDigits_decimalOf (n : Nat) : natOfDigits (decimalOf n) = n := by
  by_cases h : n = 0
  · subst h; rfl
  · rw [decimalOf_eq_digits n h, natOfDigits, ← List.map_reverse, foldl_digits]
    simp [Nat.ofDigits_digits]

lemma isDigit_true (b : Nat) (h : 48 ≤ b ∧ b ≤ 57) : isDigit b = true := by
  simp [isDigit]
  omega

lemma digitCount_cons (b : Nat) (l : Bytes) :
    digitCount (b :: l) = if isDigit b then digitCount l + 1 else 0 := rfl

lemma digitCount_append (ds : Bytes) (r : Bytes) (h : ∀ b ∈ ds, 48 ≤ b ∧ b ≤ 57) :
    digitCount (ds ++ 58 :: r) = ds.length := by
  induction ds with
  | nil => simp [digitCount, isDigit]
  | cons b ds ih =>
    have hb := h b (List.mem_cons_self _ _)
    rw [List.cons_append, digitCount_cons, if_pos (isDigit_true b hb),
        ih (fun q hq => h q (List.mem_cons_of_mem _ hq)), List.length_cons]

lemma nulIdx_cons (b : Nat) (l : Bytes) :
    nulIdx (b :: l) = if b = 0 then 0 else nulIdx l + 1 := rfl

lemma nulIdx_no_nul (A : Bytes) (h : (0 : Nat) ∉ A) : nulIdx A = A.length := by
  induction A with
  | nil => rfl
  | cons a A ih =>
    have ha : a ≠ 0 := fun hh => h (hh ▸ List.mem_cons_self _ _)
    rw [nulIdx_cons, if_neg ha, ih (fun hh => h (List.mem_cons_of_mem _ hh)),
        List.length_cons]

lemma nulIdx_append (A rest : Bytes) (h : (0 : Nat) ∉ A) :
    nulIdx (A ++ 0 :: rest) = A.length := by
  induction A with
  | nil => simp [nulIdx]
  | cons a A ih =>
    have ha : a ≠ 0 := fun hh => h (hh ▸ List.mem_cons_self _ _)
    rw [List.cons_append, nulIdx_cons, if_neg ha,
        ih (fun hh => h (List.mem_cons_of_mem _ hh)), List.length_cons]

lemma parse_header_no_nul (data : Bytes) (h : (0 : Nat) ∉ data) :
    TSReader.parse_header data = none := by
  simp only [TSReader.parse_header, nulIdx_no_nul data h]
  simp

/-- Names acceptable to the header protocol: no NUL (the header terminator)
and no line terminator (which the ECMAScript dot of the header regex
refuses to match). -/
def GoodName (name : Bytes) : Prop := ∀ b ∈ name, b ≠ 0 ∧ b ≠ 10 ∧ b ≠ 13

lemma parse_header_hdr (ds name rest : Bytes)
    (hds : ∀ b ∈ ds, 48 ≤ b ∧ b ≤ 57) (hn : GoodName name) :
    TSReader.parse_header ((ds ++ 58 :: name) ++ 0 :: rest)
      = some (⟨natOfDigits ds, name⟩, rest) := by
  have hA0 : (0 : Nat) ∉ ds ++ 58 :: name := by
    intro hmem
    rcases List.mem_append.mp hmem with h | h
    · have := hds 0 h; omega
    · rcases List.mem_cons.mp h with h2 | h2
      · omega
      · exact (hn 0 h2).1 rfl
  have hnul : nulIdx ((ds ++ 58 :: name) ++ 0 :: rest) = (ds ++ 58 :: name).length :=
    nulIdx_append _ rest hA0
  have htake : ((ds ++ 58 :: name) ++ 0 :: rest).take ((ds ++ 58 :: name).length)
      = ds ++ 58 :: name := List.take_left _ _
  have hdropA : ((ds ++ 58 :: name) ++ 0 :: rest).drop ((ds ++ 58 :: name).length)
      = 0 :: rest := List.drop_left _ _
  have hdrop : ((ds ++ 58 :: name) ++ 0 :: rest).drop ((ds ++ 58 :: name).length + 1)
      = rest := by
    rw [← List.drop_drop, hdropA]
    simp
  have hmatch : regexHeaderMatch (ds ++ 58 :: name) = some (natOfDigits ds, name) := by
    have hk : digitCount (ds ++ 58 :: name) = ds.length := digitCount_append ds name hds
    have hd1 : (ds ++ 58 :: name).drop ds.length = 58 :: name := List.drop_left _ _
    have hd2 : (ds ++ 58 :: name).drop (ds.length + 1) = name := by
      rw [← List.drop_drop, hd1]
      simp
    have ht : (ds ++ 58 :: name).take ds.length = ds := List.take_left _ _
    have hall : name.all dotByte = true := by
      rw [List.all_eq_true]
      intro b hb
      have := hn b hb
      simp [dotByte]
      omega
    simp only [regexHeaderMatch, hk, hd1, hd2, ht, List.headI_cons, hall]
    simp
  have hlt : (ds ++ 58 :: name).length < ((ds ++ 58 :: name) ++ 0 :: rest).length := by
    rw [List.length_append]
    simp
  simp only [TSReader.parse_header, hnul, htake, hmatch, hdrop]
  rw [if_pos hlt]

/-! State lemmas for `TSReader::load`. -/

lemma handlePacket_file (st : TSReader.State) (pl : Bytes) :
    TSReader.handlePacket st (fileId ++ pl)
      = TSReader.accum ⟨[], none, st.m_entries⟩ pl := by
  have hdrop : (fileId ++ pl).drop 12 = pl := List.drop_left' rfl
  simp [TSReader.handlePacket, get_id_file, hdrop]

lemma handlePacket_data (st : TSReader.State) (pl : Bytes) :
    TSReader.handlePacket st (dataId ++ pl) = TSReader.accum st pl := by
  have hdrop : (dataId ++ pl).drop 12 = pl := List.drop_left' rfl
  simp [TSReader.handlePacket, get_id_data, hdrop]

/-- The NUL-free part of the framed header of an entry. -/
def hdrBytes (e : Entry) : Bytes := decimalOf e.data.length ++ 58 :: e.name

/-- Length of the framed header including its NUL terminator. -/
def headerLen (e : Entry) : Nat := (hdrBytes e).length + 1

/-- The reader state reached after accumulating the first `c.length` bytes
of the framed sequence of entry `e` (with entries `E` already recovered):
before the header is complete the buffer holds exactly the consumed bytes
and no header is known; afterwards the header is known and the buffer
holds the consumed data bytes. -/
def entryState (e : Entry) (E : List Entry) (c : Bytes) : TSReader.State :=
  if c.length < headerLen e then ⟨c, none, E⟩
  else ⟨e.data.take (c.length - headerLen e), some ⟨e.data.length, e.name⟩, E⟩

lemma frame_shape (e : Entry) : frameEntry e = hdrBytes e ++ 0 :: e.data := by
  simp [frameEntry, hdrBytes, List.append_assoc]

lemma frame_length (e : Entry) :
    (frameEntry e).length = headerLen e + e.data.length := by
  rw [frame_shape, List.length_append, List.length_cons, headerLen]
  omega

lemma frame_ne_nil (e : Entry) : frameEntry e ≠ [] := by
  rw [frame_shape]
  intro h
  have := congrArg List.length h
  simp at this

lemma hdr_no_nul (e : Entry) (hn : GoodName e.name) : (0 : Nat) ∉ hdrBytes e := by
  intro hmem
  rcases List.mem_append.mp hmem with h | h
  · have := decimalOf_digits e.data.length 0 h; omega
  · rcases List.mem_cons.mp h with h2 | h2
    · omega
    · exact (hn 0 h2).1 rfl

lemma parse_frame (e : Entry) (hn : GoodName e.name) (rest : Bytes) :
    TSReader.parse_header (hdrBytes e ++ 0 :: rest)
      = some (⟨e.data.length, e.name⟩, rest) := by
  have h := parse_header_hdr (decimalOf e.data.length) e.name rest
    (decimalOf_digits _) hn
  rw [natOfDigits_decimalOf] at h
  simpa [hdrBytes] using h

lemma drop_headerLen (e : Entry) : (frameEntry e).drop (headerLen e) = e.data := by
  rw [frame_shape, headerLen, ← List.drop_drop, List.drop_left]
  simp

lemma take_lt_header (e : Entry) (n : Nat) (h : n < headerLen e) :
    (frameEntry e).take n = (hdrBytes e).take n := by
  have hH : headerLen e = (hdrBytes e).length + 1 := rfl
  rw [frame_shape, List.take_append_eq_append_take]
  have h0 : n - (hdrBytes e).length = 0 := by omega
  rw [h0]
  simp

lemma take_ge_header (e : Entry) (n : Nat) (h1 : headerLen e ≤ n) :
    (frameEntry e).take n = hdrBytes e ++ 0 :: e.data.take (n - headerLen e) := by
  have hH : headerLen e = (hdrBytes e).length + 1 := rfl
  rw [frame_shape, List.take_append_eq_append_take,
      List.take_of_length_le (by omega)]
  congr 1
  have h2 : n - (hdrBytes e).length = (n - headerLen e) + 1 := by omega
  rw [h2, List.take_succ_cons]

lemma data_split (e : Entry) (c d : Bytes) (hcd : frameEntry e = c ++ d)
    (hc : headerLen e ≤ c.length) :
    e.data = c.drop (headerLen e) ++ d := by
  have h := drop_headerLen e
  rw [hcd, List.drop_append_eq_append_drop] at h
  have h0 : headerLen e - c.length = 0 := by omega
  rw [h0, List.drop_zero] at h
  exact h.symm

lemma data_take_drop (e : Entry) (c d : Bytes) (hcd : frameEntry e = c ++ d)
    (hc : headerLen e ≤ c.length) :
    e.data.take (c.length - headerLen e) = c.drop (headerLen e) := by
  rw [data_split e c d hcd hc,
      List.take_left' (by rw [List.length_drop])]

lemma accum_last (e : Entry) (hn : GoodName e.name) (c d : Bytes) (E : List Entry)
    (hcd : frameEntry e = c ++ d) (_hd : d ≠ []) (_hlast : d.length ≤ 176) :
    TSReader.accum (entryState e E c) (d ++ List.replicate (176 - d.length) 0)
      = ⟨[], none, E ++ [e]⟩ := by
  have hH : headerLen e = (hdrBytes e).length + 1 := rfl
  set z := List.replicate (176 - d.length) (0 : Nat) with hz
  have hle : e.data.length ≤ (e.data ++ z).length := by
    rw [List.length_append]; omega
  have hfin : TSReader.finish E ⟨e.data.length, e.name⟩ (e.data ++ z)
      = ⟨[], none, E ++ [e]⟩ := by
    simp only [TSReader.finish]
    rw [if_pos hle, List.take_left]
  by_cases hc : c.length < headerLen e
  · -- header not yet complete: the whole frame plus padding is parsed now
    have hstate : entryState e E c = ⟨c, none, E⟩ := by
      simp only [entryState]; rw [if_pos hc]
    rw [hstate]
    simp only [TSReader.accum]
    have hstream : c ++ (d ++ z) = hdrBytes e ++ 0 :: (e.data ++ z) := by
      rw [← List.append_assoc, ← hcd, frame_shape, List.append_assoc]
      rfl
    rw [hstream, parse_frame e hn]
    exact hfin
  · -- header already known: the remaining data plus padding completes it
    push_neg at hc
    have hnlt : ¬ c.length < headerLen e := by omega
    have hstate : entryState e E c
        = ⟨e.data.take (c.length - headerLen e), some ⟨e.data.length, e.name⟩, E⟩ := by
      simp only [entryState]; rw [if_neg hnlt]
    rw [hstate]
    simp only [TSReader.accum]
    have htd := data_take_drop e c d hcd hc
    have hsplit := data_split e c d hcd hc
    have hstream : e.data.take (c.length - headerLen e) ++ (d ++ z) = e.data ++ z := by
      rw [htd, ← List.append_assoc, ← hsplit]
    rw [hstream]
    exact hfin

lemma take_chunk (A B : Bytes) (m : Nat) (hm : A.length ≤ m) :
    (A ++ B).take m = A ++ B.take (m - A.length) := by
  rw [List.take_append_eq_append_take, List.take_of_length_le hm]

lemma accum_mid (e : Entry) (hn : GoodName e.name) (c d : Bytes) (E : List Entry)
    (hcd : frameEntry e = c ++ d) (hmid : 176 < d.length) :
    TSReader.accum (entryState e E c) (d.take 176)
      = entryState e E (c ++ d.take 176) := by
  have hH : headerLen e = (hdrBytes e).length + 1 := rfl
  have hLf : (frameEntry e).length = headerLen e + e.data.length := frame_length e
  have hLc : (frameEntry e).length = c.length + d.length := by
    rw [hcd, List.length_append]
  have htlen : (d.take 176).length = 176 := by
    rw [List.length_take]; omega
  have hn' : (c ++ d.take 176).length = c.length + 176 := by
    rw [List.length_append, htlen]
  have hframe2 : frameEntry e = (c ++ d.take 176) ++ d.drop 176 := by
    rw [hcd, List.append_assoc, List.take_append_drop]
  have hstate2big : headerLen e ≤ (c ++ d.take 176).length →
      entryState e E (c ++ d.take 176)
        = ⟨e.data.take ((c ++ d.take 176).length - headerLen e),
           some ⟨e.data.length, e.name⟩, E⟩ := by
    intro hge
    simp only [entryState]
    rw [if_neg (by omega)]
  by_cases hc : c.length < headerLen e
  · have hstate : entryState e E c = ⟨c, none, E⟩ := by
      simp only [entryState]; rw [if_pos hc]
    rw [hstate]
    simp only [TSReader.accum]
    have hpfx : c ++ d.take 176 = (frameEntry e).take ((c ++ d.take 176).length) := by
      rw [hframe2, List.take_left]
    by_cases hcc : (c ++ d.take 176).length < headerLen e
    · -- still inside the NUL-free header: no NUL, parsing keeps waiting
      have hnonul : (0 : Nat) ∉ c ++ d.take 176 := by
        rw [hpfx, take_lt_header e _ hcc]
        intro hmem
        exact hdr_no_nul e hn (List.take_subset _ _ hmem)
      rw [parse_header_no_nul _ hnonul]
      have hstate2 : entryState e E (c ++ d.take 176) = ⟨c ++ d.take 176, none, E⟩ := by
        simp only [entryState]; rw [if_pos hcc]
      rw [hstate2]
    · -- the NUL arrived inside this chunk: header parses, entry incomplete
      push_neg at hcc
      rw [hstate2big hcc]
      have hshape : c ++ d.take 176
          = hdrBytes e ++ 0 :: e.data.take ((c ++ d.take 176).length - headerLen e) := by
        conv_lhs => rw [hpfx, take_ge_header e _ hcc]
      conv_lhs => rw [hshape]
      rw [parse_frame e hn]
      simp only [TSReader.finish]
      have hnle : ¬ e.data.length
          ≤ (e.data.take ((c ++ d.take 176).length - headerLen e)).length := by
        rw [List.length_take]
        omega
      rw [if_neg hnle]
  · -- header already known: append this chunk to the data accumulation
    push_neg at hc
    have hnlt : ¬ c.length < headerLen e := by omega
    have hstate : entryState e E c
        = ⟨e.data.take (c.length - headerLen e), some ⟨e.data.length, e.name⟩, E⟩ := by
      simp only [entryState]; rw [if_neg hnlt]
    rw [hstate]
    simp only [TSReader.accum]
    rw [hstate2big (by omega)]
    have htd := data_take_drop e c d hcd hc
    have hsplit := data_split e c d hcd hc
    have h1 : e.data.take ((c ++ d.take 176).length - headerLen e)
        = (c.drop (headerLen e) ++ d).take ((c ++ d.take 176).length - headerLen e) := by
      rw [← hsplit]
    have hlen2 : (c.drop (headerLen e)).length ≤ (c ++ d.take 176).length - headerLen e := by
      rw [List.length_drop]
      omega
    have h2 : (c.drop (headerLen e) ++ d).take ((c ++ d.take 176).length - headerLen e)
        = c.drop (headerLen e)
          ++ d.take ((c ++ d.take 176).length - headerLen e - (c.drop (headerLen e)).length) :=
      take_chunk _ _ _ hlen2
    have h3 : (c ++ d.take 176).length - headerLen e - (c.drop (headerLen e)).length = 176 := by
      rw [List.length_drop]
      omega
    have hstream : e.data.take (c.length - headerLen e) ++ d.take 176
        = e.data.take ((c ++ d.take 176).length - headerLen e) := by
      rw [htd, h1, h2, h3]
    rw [hstream]
    simp only [TSReader.finish]
    have hnle : ¬ e.data.length
        ≤ (e.data.take ((c ++ d.take 176).length - headerLen e)).length := by
      rw [List.length_take]
      omega
    rw [if_neg hnle]

lemma entryState_nil (e : Entry) (E : List Entry) :
    entryState e E [] = ⟨[], none, E⟩ := by
  have hH : headerLen e = (hdrBytes e).length + 1 := rfl
  simp only [entryState]
  rw [if_pos (by simp; omega)]

lemma runEntry (e : Entry) (hn : GoodName e.name) :
    ∀ (fuel : Nat) (c d : Bytes) (first : Bool) (E : List Entry) (w : Nat → Bool) (idx : Nat),
      frameEntry e = c ++ d → d ≠ [] → d.length ≤ fuel → (first = true → c = []) →
      TSReader.runPackets (entryState e E c) ((TSWriter.emitEntry w fuel idx first d).1)
        = ⟨[], none, E ++ [e]⟩ := by
  intro fuel
  induction fuel with
  | zero =>
    intro c d first E w idx hcd hd hf hfc
    have : 0 < d.length := List.length_pos.mpr hd
    omega
  | succ f ih =>
    intro c d first E w idx hcd hd hf hfc
    rw [emitEntry_cons w f idx first d hd, runPackets_cons]
    have hpad : ∀ id : Bytes, padPacket id (d.take 176)
        = id ++ (d.take 176 ++ List.replicate (176 - (d.take 176).length) 0) := by
      intro id
      simp only [padPacket]
      rw [List.append_assoc]
    have hstep : TSReader.handlePacket (entryState e E c)
        (padPacket (if first then fileId else dataId) (d.take 176))
        = TSReader.accum (entryState e E c)
            (d.take 176 ++ List.replicate (176 - (d.take 176).length) 0) := by
      cases first with
      | true =>
        have hc0 : c = [] := hfc rfl
        subst hc0
        rw [if_pos rfl, hpad, handlePacket_file, entryState_nil]
      | false =>
        rw [if_neg (by decide), hpad, handlePacket_data]
    rw [hstep]
    by_cases hlast : d.length ≤ 176
    · have htk : d.take 176 = d := List.take_of_length_le hlast
      rw [htk, accum_last e hn c d E hcd hd hlast,
          List.drop_eq_nil_of_le hlast, emitEntry_empty, runPackets_nil]
    · push_neg at hlast
      have htlen : (d.take 176).length = 176 := by
        rw [List.length_take]; omega
      have hrep : List.replicate (176 - (d.take 176).length) (0 : Nat) = [] := by
        rw [htlen]
        simp
      rw [hrep, List.append_nil, accum_mid e hn c d E hcd hlast]
      have hcd2 : frameEntry e = (c ++ d.take 176) ++ d.drop 176 := by
        rw [hcd, List.append_assoc, List.take_append_drop]
      have hd2 : d.drop 176 ≠ [] := by
        refine List.length_pos.mp ?_
        rw [List.length_drop]
        omega
      have hf2 : (d.drop 176).length ≤ f := by
        rw [List.length_drop]
        omega
      exact ih (c ++ d.take 176) (d.drop 176) false E w (idx + 1) hcd2 hd2 hf2
        (fun h => absurd h (by decide))

lemma runEntries (w : Nat → Bool) :
    ∀ (es : List Entry) (E : List Entry) (idx : Nat),
      (∀ e ∈ es, GoodName e.name) →
      TSReader.runPackets ⟨[], none, E⟩ ((TSWriter.entriesOut w idx es).1)
        = ⟨[], none, E ++ es⟩ := by
  intro es
  induction es with
  | nil => intro E idx _; simp [TSWriter.entriesOut, runPackets_nil]
  | cons e es ih =>
    intro E idx hgood
    have he := hgood e (List.mem_cons_self _ _)
    have hes : ∀ q ∈ es, GoodName q.name := fun q hq => hgood q (List.mem_cons_of_mem _ hq)
    simp only [TSWriter.entriesOut]
    rw [runPackets_append]
    have h1 : TSReader.runPackets ⟨[], none, E⟩
        ((TSWriter.emitEntry w (frameEntry e).length idx true (frameEntry e)).1)
        = ⟨[], none, E ++ [e]⟩ := by
      rw [← entryState_nil e E]
      exact runEntry e he (frameEntry e).length [] (frameEntry e) true E w idx
        (by simp) (frame_ne_nil e) (le_refl _) (fun _ => rfl)
    rw [h1, ih (E ++ [e]) _ hes, List.append_assoc]
    rfl

/-! Composition lemmas for `TSReader::load`. -/

lemma loadLoop_flatten_nil (ps : List Bytes) (fuel : Nat) (st : TSReader.State)
    (hps : ∀ p ∈ ps, p.length = 188 ∧ p.headI = 71) (hfuel : ps.flatten.length ≤ fuel) :
    TSReader.loadLoop fuel st ps.flatten = (none, TSReader.runPackets st ps) := by
  have h : ps.flatten = ps.flatten ++ [] := (List.append_nil _).symm
  rw [h, loadLoop_flatten ps fuel st [] hps (by simpa using hfuel), loadLoop_nil]

lemma load_flatten (ps : List Bytes) (hps : ∀ p ∈ ps, p.length = 188 ∧ p.headI = 71) :
    TSReader.load ps.flatten
      = (none, (TSReader.runPackets ⟨[], none, []⟩ ps).m_entries) := by
  simp only [TSReader.load]
  rw [loadLoop_flatten_nil ps _ _ hps (le_refl _)]

lemma load_fail (ps : List Bytes) (s : Bytes) (e : Err)
    (hps : ∀ p ∈ ps, p.length = 188 ∧ p.headI = 71)
    (hs : (TSPacket.read s).1 = ReadResult.fail e) :
    TSReader.load (ps.flatten ++ s)
      = (some e, (TSReader.runPackets ⟨[], none, []⟩ ps).m_entries) := by
  have hsne : s ≠ [] := by
    intro h; subst h; rw [read_nil] at hs; exact ReadResult.noConfusion hs
  have hslen : 0 < s.length := List.length_pos.mpr hsne
  have hflat : ps.length ≤ ps.flatten.length :=
    flatten_length_ge ps (fun p hp => (hps p hp).1)
  simp only [TSReader.load]
  rw [loadLoop_flatten ps _ _ s hps (le_refl _)]
  obtain ⟨f, hf⟩ : ∃ f, (ps.flatten ++ s).length - ps.length = f + 1 :=
    ⟨(ps.flatten ++ s).length - ps.length - 1, by rw [List.length_append]; omega⟩
  rw [hf, loadLoop_fail f _ s e hs]

lemma loadLoop_fst_eq_readScan :
    ∀ (fuel : Nat) (st : TSReader.State) (s : Bytes),
      (TSReader.loadLoop fuel st s).1 = readScan fuel s := by
  intro fuel
  induction fuel with
  | zero => intro st s; rfl
  | succ f ih =>
    intro st s
    simp only [TSReader.loadLoop, readScan]
    rcases hr : TSPacket.read s with ⟨r, rest⟩
    cases r with
    | eof => rfl
    | ok p => exact ih _ _
    | fail e => rfl

/-! Claim theorems. -/

/-- C1 (amended): round trip.  For every list of entries whose names
contain no NUL byte and also no line-terminator byte (LF 0x0A or CR 0x0D,
which the ECMAScript dot of the header regex refuses, so such names never
reparse), `TSReader::load` applied to the byte stream that
`TSWriter::process` produces from an empty input recovers exactly the
staged entries: equal names, byte-exact data, append order, and no
error. -/
theorem c1_round_trip (es : List Entry) (w : Nat → Bool)
    (h : ∀ e ∈ es, ∀ b ∈ e.name, b ≠ 0 ∧ b ≠ 10 ∧ b ≠ 13) :
    TSReader.load ((TSWriter.process es w []).2.flatten) = (none, es) := by
  rw [process_empty, ← entriesOut_fst w es 0,
      load_flatten _ (fun p hp => entriesOut_good w es 0 p hp),
      runEntries w es [] 0 h]
  simp

theorem c1_round_trip_witness :
    TSReader.load ((TSWriter.process [⟨[97], [1, 2, 3]⟩] (fun _ => false) []).2.flatten)
      = (none, [⟨[97], [1, 2, 3]⟩]) :=
  c1_round_trip [⟨[97], [1, 2, 3]⟩] (fun _ => false) (by decide)

/-- C1 counterexample to the claim as stated: the single entry named by the
one byte LF (0x0A), with empty data and no colon anywhere, satisfies the
stated hypotheses (no NUL, no colon ambiguity), yet the written stream
does not load back to that entry - the header regex never matches a name
containing a line terminator, so the entry is lost. -/
theorem c1_newline_name_cex :
    ¬ TSReader.load ((TSWriter.process [⟨[10], []⟩] (fun _ => false) []).2.flatten)
        = (none, [⟨[10], []⟩]) := by
  decide

/-- C2: pass-through fidelity.  For every input stream that is a
concatenation of valid 188-byte sync packets and every entry list, the
output of `TSWriter::process` is exactly the input packets, in order and
unmodified, followed by the marked entry packets, and the output byte
stream therefore begins byte-identically with the input. -/
theorem c2_pass_through (es : List Entry) (w : Nat → Bool) (ps : List Bytes)
    (hps : ∀ p ∈ ps, p.length = 188 ∧ p.headI = 71) :
    TSWriter.process es w ps.flatten = (none, ps ++ (es.map entryPackets).flatten)
    ∧ ((ps ++ (es.map entryPackets).flatten).flatten).take ps.flatten.length
        = ps.flatten := by
  refine ⟨process_valid es w ps hps, ?_⟩
  rw [List.flatten_append, List.take_left]

theorem c2_pass_through_witness :
    TSWriter.process [⟨[97], [1]⟩] (fun _ => false) ([71 :: List.replicate 187 0].flatten)
      = (none, [71 :: List.replicate 187 0] ++ ([(⟨[97], [1]⟩ : Entry)].map entryPackets).flatten)
    ∧ (([71 :: List.replicate 187 0] ++ ([(⟨[97], [1]⟩ : Entry)].map entryPackets).flatten).flatten).take
        ([71 :: List.replicate 187 0].flatten).length
      = [71 :: List.replicate 187 0].flatten :=
  c2_pass_through [⟨[97], [1]⟩] (fun _ => false) [71 :: List.replicate 187 0] (by decide)

/-- C3 (code bug evidence): write failures are ignored.  Under an
environment in which every `fwrite` fails (so the single packet write of
the staged entry returns a short-write error, first conjunct), the source
still returns `Error::Code::NONE`: it assigns each `p.write` result to a
local variable and never tests it.  One packet write is attempted (third
conjunct), every write fails, and yet no error is returned (second
conjunct), contradicting the claim that a failing write aborts `process`
with that error. -/
theorem c3_write_failure_ignored :
    TSPacket.write (fun _ => true) 0 = some Err.shortWrite
    ∧ (TSWriter.process [⟨[97], [1, 2, 3]⟩] (fun _ => true) []).1 = none
    ∧ (TSWriter.process [⟨[97], [1, 2, 3]⟩] (fun _ => true) []).2.length = 1 := by
  refine ⟨rfl, ?_, ?_⟩ <;> decide

/-- C4: packet count per entry.  `TSWriter::process` on one staged entry
over an empty input emits exactly its entry packets: their number is the
ceiling of the framed length over 176 (in particular exactly L / 176 when
176 divides the framed length L - no dangling packet), the first packet
carries the start marker and every later packet the continuation
marker. -/
theorem c4_entry_packet_count (e : Entry) (w : Nat → Bool) :
    (TSWriter.process [e] w []).2 = entryPackets e
    ∧ (entryPackets e).length = ((frameEntry e).length + 175) / 176
    ∧ (176 ∣ (frameEntry e).length → (entryPackets e).length = (frameEntry e).length / 176)
    ∧ TSPacket.get_id (entryPackets e).headI = TSPacket.ID.awmk_file
    ∧ (∀ p ∈ (entryPackets e).tail, TSPacket.get_id p = TSPacket.ID.awmk_data) := by
  have hcount : (entryPackets e).length = ((frameEntry e).length + 175) / 176 :=
    emit_count _ _ _ _ _ (frame_ne_nil e) (le_refl _)
  refine ⟨?_, hcount, ?_, ?_, ?_⟩
  · rw [process_empty]
    simp
  · rintro ⟨k, hk⟩
    rw [hcount, hk]
    omega
  · exact emit_head _ _ _ _ (frame_ne_nil e) (le_refl _)
  · exact emit_tail _ _ _ _ (frame_ne_nil e) (le_refl _)

theorem c4_entry_packet_count_witness :
    TSPacket.get_id ((entryPackets ⟨[97], List.replicate 200 7⟩).tail).headI
      = TSPacket.ID.awmk_data
    ∧ (entryPackets ⟨List.replicate 173 97, []⟩).length
        = (frameEntry ⟨List.replicate 173 97, []⟩).length / 176 := by
  constructor
  · exact (c4_entry_packet_count ⟨[97], List.replicate 200 7⟩ (fun _ => false)).2.2.2.2
      ((entryPackets ⟨[97], List.replicate 200 7⟩).tail).headI (by decide)
  · exact (c4_entry_packet_count ⟨List.replicate 173 97, []⟩ (fun _ => false)).2.2.1
      (by decide)

/-- C5: packet read contract and error propagation.  `TSPacket::read` has
exactly four outcomes - clean end of stream on an empty stream, a
short-read error on 1..187 available bytes, success on a full packet with
the sync byte, and a sync error on a full packet without it - and both
`TSReader::load` and `TSWriter::process` return a failing read outcome to
the caller, keeping only what was processed before it. -/
theorem c5_read_contract :
    TSPacket.read [] = (ReadResult.eof, [])
    ∧ (∀ s : Bytes, s ≠ [] → s.length < 188 →
        TSPacket.read s = (ReadResult.fail Err.shortRead, []))
    ∧ (∀ s : Bytes, 188 ≤ s.length → s.headI = 71 →
        TSPacket.read s = (ReadResult.ok (s.take 188), s.drop 188))
    ∧ (∀ s : Bytes, 188 ≤ s.length → s.headI ≠ 71 →
        TSPacket.read s = (ReadResult.fail Err.badSync, s.drop 188))
    ∧ (∀ (ps : List Bytes) (s : Bytes) (e : Err) (es : List Entry) (w : Nat → Bool),
        (∀ p ∈ ps, p.length = 188 ∧ p.headI = 71) →
        (TSPacket.read s).1 = ReadResult.fail e →
        TSReader.load (ps.flatten ++ s)
            = (some e, (TSReader.runPackets ⟨[], none, []⟩ ps).m_entries)
          ∧ TSWriter.process es w (ps.flatten ++ s) = (some e, ps)) := by
  refine ⟨read_nil, ?_, ?_, ?_, ?_⟩
  · intro s h0 h1
    exact read_short s h0 h1
  · intro s h1 h2
    simp only [TSPacket.read]
    rw [if_neg (by omega), if_neg (by omega),
        if_pos (by rw [headI_take s 188 (by omega)]; exact h2)]
  · intro s h1 h2
    exact read_sync s h1 h2
  · intro ps s e es w hps hs
    exact ⟨load_fail ps s e hps hs, process_fail es w ps s e hps hs⟩

theorem c5_read_contract_witness :
    TSPacket.read [71, 5] = (ReadResult.fail Err.shortRead, [])
    ∧ TSPacket.read (71 :: List.replicate 187 0)
        = (ReadResult.ok ((71 :: List.replicate 187 0).take 188),
           (71 :: List.replicate 187 0).drop 188)
    ∧ TSPacket.read (9 :: List.replicate 187 0)
        = (ReadResult.fail Err.badSync, (9 :: List.replicate 187 0).drop 188)
    ∧ TSReader.load ([71 :: List.replicate 187 0].flatten ++ [71, 5])
        = (some Err.shortRead,
           (TSReader.runPackets ⟨[], none, []⟩ [71 :: List.replicate 187 0]).m_entries)
    ∧ TSWriter.process [] (fun _ => false) ([71 :: List.replicate 187 0].flatten ++ [71, 5])
        = (some Err.shortRead, [71 :: List.replicate 187 0]) := by
  obtain ⟨h1, h2, h3, h4, h5⟩ := c5_read_contract
  have h6 := h5 [71 :: List.replicate 187 0] [71, 5] Err.shortRead [] (fun _ => false)
    (by decide) (by decide)
  exact ⟨h2 [71, 5] (by decide) (by decide), h3 _ (by decide) (by decide),
    h4 _ (by decide) (by decide), h6.1, h6.2⟩

/-- C6: start-marker reset invariant.  In every reader state, a packet
classified awmk_file is handled exactly as it would be from the idle state
with the same recovered entries: the accumulation buffer and parsed header
are discarded and accumulation restarts from the 176-byte
payload region of this packet alone, so an unterminated previous entry is never
emitted. -/
theorem c6_start_reset (st : TSReader.State) (p : Bytes)
    (h : TSPacket.get_id p = TSPacket.ID.awmk_file) :
    TSReader.handlePacket st p = TSReader.accum ⟨[], none, st.m_entries⟩ (p.drop 12)
    ∧ TSReader.handlePacket st p = TSReader.handlePacket ⟨[], none, st.m_entries⟩ p := by
  constructor
  · simp [TSReader.handlePacket, h]
  · simp [TSReader.handlePacket, h]

theorem c6_start_reset_witness :
    TSReader.handlePacket ⟨[1, 2], some ⟨3, [120]⟩, [⟨[97], [1]⟩]⟩
        (fileId ++ 49 :: 58 :: 102 :: 0 :: List.replicate 172 0)
      = TSReader.handlePacket ⟨[], none, [⟨[97], [1]⟩]⟩
          (fileId ++ 49 :: 58 :: 102 :: 0 :: List.replicate 172 0) :=
  (c6_start_reset ⟨[1, 2], some ⟨3, [120]⟩, [⟨[97], [1]⟩]⟩
    (fileId ++ 49 :: 58 :: 102 :: 0 :: List.replicate 172 0) (by decide)).2

/-- C7 counterexample: an orphan continuation packet is not discarded.  A
stream consisting of one single awmk_data packet - no start marker ever
seen - makes `TSReader::load` recover an entry built from the payload
of that packet, refuting the claim that such a payload contributes to no
recovered entry. -/
theorem c7_orphan_cex :
    (TSReader.load (dataId ++ 49 :: 58 :: 102 :: 0 :: 88 :: List.replicate 171 0)).2
      ≠ [] := by
  decide

/-- C7 (amended): an orphan continuation packet arriving in the idle state
(empty accumulation, no header) is appended to the empty accumulation
buffer and processed exactly as a start packet with the same payload would
be; its payload can therefore contribute to recovered entries. -/
theorem c7_orphan_accumulated (E : List Entry) (pl : Bytes) :
    TSReader.handlePacket ⟨[], none, E⟩ (dataId ++ pl)
      = TSReader.handlePacket ⟨[], none, E⟩ (fileId ++ pl) := by
  rw [handlePacket_data, handlePacket_file]

/-- C8: malformed header tolerance.  `TSReader::parse_header` returns
false (buffer untouched) whenever the buffer has no NUL byte or the bytes
before its first NUL fail the digits-colon-rest pattern; and the error
result of `TSReader::load` equals the pure packet-structure scan of the
stream, which never inspects packet payloads - so no header content can
make `load` fail, it merely retries as more bytes arrive. -/
theorem c8_malformed_header :
    (∀ data : Bytes,
        ((0 : Nat) ∉ data ∨ regexHeaderMatch (data.take (nulIdx data)) = none) →
        TSReader.parse_header data = none)
    ∧ (∀ s : Bytes, (TSReader.load s).1 = readScan s.length s) := by
  constructor
  · intro data h
    rcases h with h | h
    · exact parse_header_no_nul data h
    · simp only [TSReader.parse_header, h]
      split <;> rfl
  · intro s
    simp only [TSReader.load]
    exact loadLoop_fst_eq_readScan s.length _ s

theorem c8_malformed_header_witness :
    TSReader.parse_header [97, 0, 50] = none
    ∧ (TSReader.load [1, 2]).1 = readScan ([1, 2] : Bytes).length [1, 2] := by
  obtain ⟨h1, h2⟩ := c8_malformed_header
  exact ⟨h1 [97, 0, 50] (Or.inr (by decide)), h2 [1, 2]⟩

/-- C10: empty length field accepted.  A buffer that starts with the colon
immediately (empty digit field) parses successfully: the digit group may
match zero digits and `atoi` of the empty string is 0, so the header
yields data size 0 and the name, and a start packet carrying such a
header immediately completes an entry with that name and empty data. -/
theorem c10_empty_length (name rest : Bytes) (E : List Entry)
    (h : ∀ b ∈ name, b ≠ 0 ∧ b ≠ 10 ∧ b ≠ 13) :
    TSReader.parse_header ((58 :: name) ++ 0 :: rest) = some (⟨0, name⟩, rest)
    ∧ TSReader.handlePacket ⟨[], none, E⟩ (fileId ++ ((58 :: name) ++ 0 :: rest))
        = ⟨[], none, E ++ [⟨name, []⟩]⟩ := by
  have hparse : TSReader.parse_header ((58 :: name) ++ 0 :: rest)
      = some (⟨0, name⟩, rest) := by
    have h2 := parse_header_hdr [] name rest (by intro b hb; simp at hb) h
    simpa using h2
  refine ⟨hparse, ?_⟩
  rw [handlePacket_file]
  simp only [TSReader.accum]
  rw [List.nil_append, hparse]
  simp only [TSReader.finish]
  rw [if_pos (Nat.zero_le _)]
  simp

theorem c10_empty_length_witness :
    TSReader.parse_header ((58 :: [110, 97, 109, 101]) ++ 0 :: [7, 8])
      = some (⟨0, [110, 97, 109, 101]⟩, [7, 8]) :=
  (c10_empty_length [110, 97, 109, 101] [7, 8] [] (by decide)).1
